import Mathlib

/-!
Verification development for the exchange-bot core (rate engine, inventory
ledger, transaction finalization, bulk intake).

The embedding mirrors `src/utils.py` and `src/bot.py`:
* decimals are modelled as rationals (`ℚ`);
* the sqlite tables `inventory_batches`, `customer_transactions`,
  `tx_batch_usage` and `bulk_transfers` become lists held in a `DB` record,
  kept in primary-key (insertion) order, matching `ORDER BY id` on reads;
* a stateful call returns the committed database state paired with an
  `Except` value: the Python code commits the batch updates before raising
  `Exception("Insufficient GHS in inventory")`, and this ordering is kept.
-/

namespace ExchangeBot

/-- Row of `inventory_batches`: `(id, remaining_ghs, usd_cost_per_ghs)`. -/
structure Lot where
  id : Nat
  remaining_ghs : ℚ
  usd_cost_per_ghs : ℚ
deriving DecidableEq

/-- Row of `bulk_transfers`: `(id, usd_amount, market_rate, ghs_received)`. -/
structure BulkTransfer where
  id : Nat
  usd_amount : ℚ
  market_rate : ℚ
  ghs_received : ℚ
deriving DecidableEq

/-- Row of `customer_transactions` (numeric columns). -/
structure CustomerTx where
  usd_received : ℚ
  suggested_ghs : ℚ
  actual_ghs_paid : ℚ
  market_rate_at_time : ℚ
  owner_rate_at_time : ℚ
  intermediary_rate_at_time : ℚ
  owner_profit_usd : ℚ
deriving DecidableEq

/-- The mutable database state touched by the core operations. -/
structure DB where
  bulks : List BulkTransfer
  lots : List Lot
  txs : List CustomerTx
  tx_batch_usage : List (Nat × Nat × ℚ)
deriving DecidableEq

/-- Failure outcomes of the core operations.  `insufficientInventory` covers
both the pre-check message in `finalize_transaction` and the exception raised
by `deduct_from_inventory`; `divisionByZero` is the `ZeroDivisionError` that
`bulk_rate` hits when computing `1/rate` with `rate = 0`. -/
inductive Err where
  | exceedsOwnerShare
  | insufficientInventory
  | negativeProfit
  | divisionByZero
deriving DecidableEq

/-- `floor_step` from `utils.py`: floor to the nearest multiple of `step`. -/
def floor_step (value : ℚ) (step : ℚ := 1/2) : ℚ :=
  ⌊value / step⌋ * step

/-- `owner_rate` from `utils.py`, including the correction branch. -/
def owner_rate (market : ℚ) : ℚ :=
  let base := market * (8/10)
  let floored := floor_step base
  if base - floored > 1/2 then floored - 1/2 else floored

/-- `intermediary_rate` from `utils.py`, including the correction branch. -/
def intermediary_rate (market : ℚ) : ℚ :=
  let base := market * (75/100)
  let floored := floor_step base
  if base - floored > 1/2 then floored - 1/2 else floored

/-- `SELECT SUM(remaining_ghs) FROM inventory_batches` (all rows, including
fully depleted ones). -/
def totalRemaining (lots : List Lot) : ℚ :=
  (lots.map Lot.remaining_ghs).sum

/-- Result of the deduction loop body in `deduct_from_inventory`:
the updated table, the `usage` list of `(batch_id, take, cost)` triples,
the accumulated `total_cost_usd`, and the final value of `remaining`. -/
structure DeductRun where
  lots : List Lot
  usage : List (Nat × ℚ × ℚ)
  cost : ℚ
  leftover : ℚ
deriving DecidableEq

/-- The loop of `deduct_from_inventory`: iterate rows in id order, skipping
rows with `remaining_ghs ≤ 0` (the SQL `WHERE remaining_ghs > 0` filter),
breaking once `remaining ≤ 0`, and for each visited row taking
`min(avail, remaining)`. -/
def runDeduct : List Lot → ℚ → DeductRun
  | [], r => ⟨[], [], 0, r⟩
  | lot :: rest, r =>
    if 0 < lot.remaining_ghs then
      if r ≤ 0 then ⟨lot :: rest, [], 0, r⟩
      else
        let take := min lot.remaining_ghs r
        let d := runDeduct rest (r - take)
        ⟨{ lot with remaining_ghs := lot.remaining_ghs - take } :: d.lots,
         (lot.id, take, lot.usd_cost_per_ghs) :: d.usage,
         take * lot.usd_cost_per_ghs + d.cost,
         d.leftover⟩
    else
      let d := runDeduct rest r
      ⟨lot :: d.lots, d.usage, d.cost, d.leftover⟩

/-- `deduct_from_inventory` from `utils.py`.  The loop's updates are committed
(`conn.commit()`) before the shortfall check, so the returned table reflects
them even on the error path. -/
def deduct_from_inventory (lots : List Lot) (ghs_needed : ℚ) :
    List Lot × Except Err (List (Nat × ℚ × ℚ) × ℚ) :=
  let d := runDeduct lots ghs_needed
  if 0 < d.leftover then (d.lots, .error .insufficientInventory)
  else (d.lots, .ok (d.usage, d.cost))

/-- `bulk_rate` from `bot.py` (the state-changing tail, after the rate has
been parsed): insert one `bulk_transfers` row and one `inventory_batches` row
with `remaining_ghs = usd*rate` and `usd_cost_per_ghs = 1/rate`.  When
`rate = 0` the Python code raises `ZeroDivisionError` at `1/rate` before
`conn.commit()`, so nothing is committed: the state is returned unchanged. -/
def bulk_rate (usd rate : ℚ) (db : DB) : DB × Except Err BulkTransfer :=
  if rate = 0 then (db, .error .divisionByZero)
  else
    let ghs := usd * rate
    let bulk_id := db.bulks.length + 1
    let b : BulkTransfer := ⟨bulk_id, usd, rate, ghs⟩
    ({ db with
        bulks := db.bulks ++ [b],
        lots := db.lots ++ [⟨db.lots.length + 1, ghs, 1/rate⟩] },
     .ok b)

/-- `finalize_transaction` from `bot.py` (the core logic, with the collected
conversation inputs passed as plain values).  Steps in source order: the
owner-share ceiling check, the inventory pre-check against
`SUM(remaining_ghs)`, the FIFO deduction (whose committed mutation survives a
later rejection), the negative-profit check, and the atomic insert of the
transaction row plus its `tx_batch_usage` rows. -/
def finalize_transaction (usd actual suggested market owner inter : ℚ)
    (db : DB) : DB × Except Err CustomerTx :=
  let owner_share := usd * owner
  if actual > owner_share then (db, .error .exceedsOwnerShare)
  else if totalRemaining db.lots < owner_share then
    (db, .error .insufficientInventory)
  else
    match deduct_from_inventory db.lots owner_share with
    | (lots2, .error e) => ({ db with lots := lots2 }, .error e)
    | (lots2, .ok (usage, total_cost_usd)) =>
      let owner_profit_usd := usd - total_cost_usd
      if owner_profit_usd < 0 then
        ({ db with lots := lots2 }, .error .negativeProfit)
      else
        let tx : CustomerTx :=
          ⟨usd, suggested, actual, market, owner, inter, owner_profit_usd⟩
        let tx_id := db.txs.length + 1
        ({ db with
            lots := lots2,
            txs := db.txs ++ [tx],
            tx_batch_usage :=
              db.tx_batch_usage ++ usage.map (fun u => (tx_id, u.1, u.2.1)) },
         .ok tx)

end ExchangeBot

namespace ExchangeBot

theorem totalRemaining_nonneg {lots : List Lot}
    (hn : ∀ l ∈ lots, 0 ≤ l.remaining_ghs) : 0 ≤ totalRemaining lots := by
  induction lots with
  | nil => simp [totalRemaining]
  | cons lot rest ih =>
    have h1 := hn lot (by simp)
    have h2 := ih (fun l hl => hn l (by simp [hl]))
    simp only [totalRemaining, List.map_cons, List.sum_cons]
    simp only [totalRemaining] at h2
    linarith

theorem runDeduct_sum_usage (lots : List Lot) (r : ℚ) :
    (((runDeduct lots r).usage.map fun u => u.2.1)).sum =
      r - (runDeduct lots r).leftover := by
  induction lots generalizing r with
  | nil => simp [runDeduct]
  | cons lot rest ih =>
    by_cases h1 : 0 < lot.remaining_ghs
    · by_cases h2 : r ≤ 0
      · simp [runDeduct, h1, h2]
      · simp only [runDeduct, if_pos h1, if_neg h2]
        simp only [List.map_cons, List.sum_cons]
        rw [ih]
        ring
    · simp only [runDeduct, if_neg h1]
      exact (by rw [ih])

theorem runDeduct_cost_spec (lots : List Lot) (r : ℚ) :
    (runDeduct lots r).cost =
      (((runDeduct lots r).usage.map fun u => u.2.1 * u.2.2)).sum := by
  induction lots generalizing r with
  | nil => simp [runDeduct]
  | cons lot rest ih =>
    by_cases h1 : 0 < lot.remaining_ghs
    · by_cases h2 : r ≤ 0
      · simp [runDeduct, h1, h2]
      · simp only [runDeduct, if_pos h1, if_neg h2, List.map_cons, List.sum_cons]
        rw [ih]
    · simp only [runDeduct, if_neg h1]
      exact ih r

theorem runDeduct_totalRemaining (lots : List Lot) (r : ℚ) :
    totalRemaining (runDeduct lots r).lots =
      totalRemaining lots - (r - (runDeduct lots r).leftover) := by
  induction lots generalizing r with
  | nil => simp [runDeduct]
  | cons lot rest ih =>
    by_cases h1 : 0 < lot.remaining_ghs
    · by_cases h2 : r ≤ 0
      · simp [runDeduct, h1, h2]
      · simp only [runDeduct, if_pos h1, if_neg h2]
        simp only [totalRemaining, List.map_cons, List.sum_cons] at *
        rw [ih]
        ring
    · simp only [runDeduct, if_neg h1]
      simp only [totalRemaining, List.map_cons, List.sum_cons] at *
      rw [ih]
      ring

theorem runDeduct_leftover_nonneg (lots : List Lot) {r : ℚ} (h : 0 ≤ r) :
    0 ≤ (runDeduct lots r).leftover := by
  induction lots generalizing r with
  | nil => simpa [runDeduct]
  | cons lot rest ih =>
    by_cases h1 : 0 < lot.remaining_ghs
    · by_cases h2 : r ≤ 0
      · simpa [runDeduct, h1, h2]
      · simp only [runDeduct, if_pos h1, if_neg h2]
        exact ih (by simp [min_le_right])
    · simp only [runDeduct, if_neg h1]
      exact ih h

theorem runDeduct_leftover_nonpos (lots : List Lot) {r : ℚ}
    (hn : ∀ l ∈ lots, 0 ≤ l.remaining_ghs) (h : r ≤ totalRemaining lots) :
    (runDeduct lots r).leftover ≤ 0 := by
  induction lots generalizing r with
  | nil => simpa [runDeduct, totalRemaining] using h
  | cons lot rest ih =>
    have hlot := hn lot (by simp)
    have hrest : ∀ l ∈ rest, 0 ≤ l.remaining_ghs := fun l hl => hn l (by simp [hl])
    simp only [totalRemaining, List.map_cons, List.sum_cons] at h
    by_cases h1 : 0 < lot.remaining_ghs
    · by_cases h2 : r ≤ 0
      · simp only [runDeduct, if_pos h1, if_pos h2]; exact h2
      · simp only [runDeduct, if_pos h1, if_neg h2]
        apply ih hrest
        have hmin := totalRemaining_nonneg hrest
        simp only [totalRemaining] at hmin ⊢
        rcases min_cases lot.remaining_ghs r with ⟨hm, _⟩ | ⟨hm, _⟩ <;>
          rw [hm] <;> linarith
    · simp only [runDeduct, if_neg h1]
      apply ih hrest
      have : lot.remaining_ghs = 0 := le_antisymm (not_lt.mp h1) hlot
      simpa [totalRemaining, this] using h

theorem runDeduct_ids_take (lots : List Lot) (r : ℚ) :
    ((runDeduct lots r).usage.map fun u => u.1) =
      ((lots.filter fun l => 0 < l.remaining_ghs).map Lot.id).take
        (runDeduct lots r).usage.length := by
  induction lots generalizing r with
  | nil => simp [runDeduct]
  | cons lot rest ih =>
    by_cases h1 : 0 < lot.remaining_ghs
    · by_cases h2 : r ≤ 0
      · simp [runDeduct, h1, h2]
      · simp only [runDeduct, if_pos h1, if_neg h2]
        simp only [List.map_cons, List.length_cons, List.filter_cons,
          decide_eq_true_eq, if_pos h1, List.take_succ_cons]
        rw [ih]
    · simp only [runDeduct, if_neg h1]
      simp only [List.filter_cons, decide_eq_true_eq, if_neg h1]
      exact ih r

theorem runDeduct_preserves_nonneg (lots : List Lot) (r : ℚ)
    (hn : ∀ l ∈ lots, 0 ≤ l.remaining_ghs) :
    ∀ l ∈ (runDeduct lots r).lots, 0 ≤ l.remaining_ghs := by
  induction lots generalizing r with
  | nil => simp [runDeduct]
  | cons lot rest ih =>
    have hlot := hn lot (by simp)
    have hrest : ∀ l ∈ rest, 0 ≤ l.remaining_ghs := fun l hl => hn l (by simp [hl])
    by_cases h1 : 0 < lot.remaining_ghs
    · by_cases h2 : r ≤ 0
      · simpa [runDeduct, h1, h2] using hn
      · simp only [runDeduct, if_pos h1, if_neg h2]
        intro l hl
        rcases List.mem_cons.mp hl with hhead | htail
        · subst hhead
          simp only
          have : min lot.remaining_ghs r ≤ lot.remaining_ghs := min_le_left _ _
          linarith
        · exact ih _ hrest l htail
    · simp only [runDeduct, if_neg h1]
      intro l hl
      rcases List.mem_cons.mp hl with hhead | htail
      · subst hhead; exact hlot
      · exact ih _ hrest l htail

theorem runDeduct_nonpos_input (lots : List Lot) {r : ℚ} (h : r ≤ 0) :
    runDeduct lots r = ⟨lots, [], 0, r⟩ := by
  induction lots with
  | nil => simp [runDeduct]
  | cons lot rest ih =>
    by_cases h1 : 0 < lot.remaining_ghs
    · simp [runDeduct, h1, h]
    · simp [runDeduct, h1, ih]

end ExchangeBot

namespace ExchangeBot

theorem sub_floor_step_lt_half (x : ℚ) : x - floor_step x < 1/2 := by
  have h : x / (1/2) - 1 < (⌊x / (1/2)⌋ : ℚ) := Int.sub_one_lt_floor _
  have hx : x / (1/2) = 2 * x := by ring
  rw [hx] at h
  unfold floor_step
  rw [hx]
  linarith

theorem owner_rate_eq_floor (m : ℚ) :
    owner_rate m = ⌊m * (8/10) / (1/2)⌋ * (1/2) := by
  unfold owner_rate
  rw [if_neg (not_lt.mpr (sub_floor_step_lt_half (m * (8/10))).le)]
  rfl

theorem intermediary_rate_eq_floor (m : ℚ) :
    intermediary_rate m = ⌊m * (75/100) / (1/2)⌋ * (1/2) := by
  unfold intermediary_rate
  rw [if_neg (not_lt.mpr (sub_floor_step_lt_half (m * (75/100))).le)]
  rfl

theorem intermediary_rate_le_owner_rate {m : ℚ} (hm : 0 ≤ m) :
    intermediary_rate m ≤ owner_rate m := by
  rw [owner_rate_eq_floor, intermediary_rate_eq_floor]
  have hfloor : ⌊m * (75/100) / (1/2)⌋ ≤ ⌊m * (8/10) / (1/2)⌋ := by
    apply Int.floor_le_floor
    nlinarith
  have : (⌊m * (75/100) / (1/2)⌋ : ℚ) ≤ (⌊m * (8/10) / (1/2)⌋ : ℚ) := by
    exact_mod_cast hfloor
  linarith

theorem deduct_snd_error {lots : List Lot} {x : ℚ} {e : Err}
    (h : (deduct_from_inventory lots x).2 = .error e) : e = .insufficientInventory := by
  by_cases h1 : 0 < (runDeduct lots x).leftover
  · simp only [deduct_from_inventory, if_pos h1] at h
    exact ((Except.error.injEq _ _).mp h).symm
  · simp only [deduct_from_inventory, if_neg h1] at h
    exact absurd h (by simp)

theorem finalize_not_exceeds {usd actual suggested market owner inter : ℚ} {db : DB}
    (h : ¬ actual > usd * owner) :
    (finalize_transaction usd actual suggested market owner inter db).2
      ≠ .error .exceedsOwnerShare := by
  rcases hd : deduct_from_inventory db.lots (usd * owner) with ⟨lots2, res⟩
  cases res with
  | error e =>
    have he : e = .insufficientInventory := deduct_snd_error (by rw [hd])
    subst he
    simp only [finalize_transaction, hd]
    split_ifs <;> simp_all
  | ok p =>
    rcases p with ⟨usage, cost⟩
    simp only [finalize_transaction, hd]
    split_ifs <;> simp_all

theorem finalize_error_txs_unchanged
    {usd actual suggested market owner inter : ℚ} {db : DB} {e : Err}
    (h : (finalize_transaction usd actual suggested market owner inter db).2 = .error e) :
    (finalize_transaction usd actual suggested market owner inter db).1.txs = db.txs ∧
    (finalize_transaction usd actual suggested market owner inter db).1.tx_batch_usage
      = db.tx_batch_usage := by
  rcases hd : deduct_from_inventory db.lots (usd * owner) with ⟨lots2, res⟩
  cases res with
  | error e2 =>
    simp only [finalize_transaction, hd] at *
    split_ifs at * <;> simp_all
  | ok p =>
    rcases p with ⟨usage, cost⟩
    simp only [finalize_transaction, hd] at *
    split_ifs at * <;> simp_all

end ExchangeBot

namespace ExchangeBot

/-- Claim C1: for any ledger of lots with nonnegative remaining quantities and
any amount `x` with `0 < x ≤ totalRemaining`, `deduct_from_inventory` succeeds,
consumes lots in creation order (oldest id first, skipping depleted lots, so
the usage ids are a prefix of the ids of the lots with positive remaining
quantity), the usage quantities sum to `x`, the returned total cost is the sum
of `quantityUsed * unitCost` over the usage entries, and the total remaining
across all lots decreases by exactly `x`. -/
theorem deduct_fifo_consumes_in_order (lots : List Lot) (x : ℚ)
    (_hsorted : lots.Chain' fun a b => a.id < b.id)
    (hn : ∀ l ∈ lots, 0 ≤ l.remaining_ghs)
    (hpos : 0 < x) (hle : x ≤ totalRemaining lots) :
    (deduct_from_inventory lots x).2
      = .ok ((runDeduct lots x).usage, (runDeduct lots x).cost) ∧
    (((runDeduct lots x).usage.map fun u => u.2.1)).sum = x ∧
    (runDeduct lots x).cost
      = (((runDeduct lots x).usage.map fun u => u.2.1 * u.2.2)).sum ∧
    totalRemaining (deduct_from_inventory lots x).1 = totalRemaining lots - x ∧
    ((runDeduct lots x).usage.map fun u => u.1)
      = ((lots.filter fun l => 0 < l.remaining_ghs).map Lot.id).take
          (runDeduct lots x).usage.length := by
  have hz : (runDeduct lots x).leftover = 0 :=
    le_antisymm (runDeduct_leftover_nonpos lots hn hle)
      (runDeduct_leftover_nonneg lots hpos.le)
  refine ⟨?_, ?_, runDeduct_cost_spec lots x, ?_, runDeduct_ids_take lots x⟩
  · simp [deduct_from_inventory, hz]
  · rw [runDeduct_sum_usage, hz]; ring
  · have h1 : (deduct_from_inventory lots x).1 = (runDeduct lots x).lots := by
      simp [deduct_from_inventory, hz]
    rw [h1, runDeduct_totalRemaining, hz]; ring

theorem deduct_fifo_witness :
    (0:ℚ) < 12 ∧
    (deduct_from_inventory [⟨1, 10, 1/10⟩, ⟨2, 5, 1/5⟩] 12).2
      = .ok ((runDeduct [⟨1, 10, 1/10⟩, ⟨2, 5, 1/5⟩] 12).usage,
             (runDeduct [⟨1, 10, 1/10⟩, ⟨2, 5, 1/5⟩] 12).cost) ∧
    (((runDeduct [⟨1, 10, 1/10⟩, ⟨2, 5, 1/5⟩] 12).usage.map fun u => u.2.1)).sum = 12 :=
  have h := deduct_fifo_consumes_in_order [⟨1, 10, 1/10⟩, ⟨2, 5, 1/5⟩] 12
    (by norm_num [List.chain'_cons]) (by norm_num) (by norm_num)
    (by norm_num [totalRemaining])
  ⟨by norm_num, h.1, h.2.1⟩

/-- Claim C2 fails on the code: when `ghs_needed` exceeds the total remaining,
`deduct_from_inventory` does raise the insufficient-inventory error, but the
loop's decrements are committed before the check, so the caller observes the
mutated lots.  At the failing input (one lot of 10 GHS, deduct 20) the lot is
drained to 0 and the committed state differs from the initial one. -/
theorem deduct_insufficient_keeps_mutation :
    deduct_from_inventory [⟨1, 10, 1/10⟩] 20
      = ([⟨1, 0, 1/10⟩], .error .insufficientInventory) ∧
    ([⟨1, 0, 1/10⟩] : List Lot) ≠ [⟨1, 10, 1/10⟩] := by
  norm_num [deduct_from_inventory, runDeduct]

/-- Claim C3: `finalize_transaction` never persists a CustomerTransaction with
`ownerProfit < 0`.  On every error path the transaction log is unchanged; on
success the single appended row has `owner_profit_usd ≥ 0`; and whenever the
two guards pass, the deduction succeeds, and `usd - totalCost < 0`, the call
is rejected with `negativeProfit`. -/
theorem finalize_never_records_negative_profit
    (usd actual suggested market owner inter : ℚ) (db : DB) :
    (∀ e : Err,
        (finalize_transaction usd actual suggested market owner inter db).2 = .error e →
        (finalize_transaction usd actual suggested market owner inter db).1.txs
          = db.txs) ∧
    (∀ tx : CustomerTx,
        (finalize_transaction usd actual suggested market owner inter db).2 = .ok tx →
        0 ≤ tx.owner_profit_usd ∧
        (finalize_transaction usd actual suggested market owner inter db).1.txs
          = db.txs ++ [tx]) ∧
    (∀ (lots2 : List Lot) (usage : List (Nat × ℚ × ℚ)) (cost : ℚ),
        deduct_from_inventory db.lots (usd * owner) = (lots2, .ok (usage, cost)) →
        usd - cost < 0 →
        ¬ actual > usd * owner →
        ¬ totalRemaining db.lots < usd * owner →
        (finalize_transaction usd actual suggested market owner inter db).2
          = .error .negativeProfit) := by
  refine ⟨fun e he => (finalize_error_txs_unchanged he).1, ?_, ?_⟩
  · intro tx htx
    rcases hd : deduct_from_inventory db.lots (usd * owner) with ⟨lots2, res⟩
    cases res with
    | error e2 =>
      simp only [finalize_transaction, hd] at htx ⊢
      split_ifs at htx ⊢
    | ok p =>
      rcases p with ⟨usage, cost⟩
      simp only [finalize_transaction, hd] at htx ⊢
      split_ifs at htx ⊢ with h1 h2 h3
      simp at htx
      subst htx
      refine ⟨?_, ?_⟩
      · show (0:ℚ) ≤ usd - cost
        linarith [not_lt.mp h3]
      · rfl
  · intro lots2 usage cost hd hneg h1 h2
    simp only [finalize_transaction, hd, if_neg h1, if_neg h2, if_pos hneg]

theorem finalize_negative_profit_witness :
    (finalize_transaction 10 100 100 15 12 (23/2)
        ⟨[], [⟨1, 500, 1⟩], [], []⟩).2 = .error .negativeProfit := by
  have h := (finalize_never_records_negative_profit 10 100 100 15 12 (23/2)
      ⟨[], [⟨1, 500, 1⟩], [], []⟩).2.2
  exact h [⟨1, 380, 1⟩] [(1, 120, 1)] 120
    (by norm_num [deduct_from_inventory, runDeduct])
    (by norm_num) (by norm_num) (by norm_num [totalRemaining])

/-- Claim C4: `finalize_transaction` rejects with `exceedsOwnerShare` if and
only if `actual > usd * ownerRate`; the check happens before any mutation (the
returned state is exactly the input state), and every committed transaction
satisfies `actual_ghs_paid ≤ usd_received * owner_rate_at_time`. -/
theorem finalize_exceeds_owner_share_iff
    (usd actual suggested market owner inter : ℚ) (db : DB) :
    ((finalize_transaction usd actual suggested market owner inter db).2
        = .error .exceedsOwnerShare ↔ actual > usd * owner) ∧
    (actual > usd * owner →
      finalize_transaction usd actual suggested market owner inter db
        = (db, .error .exceedsOwnerShare)) ∧
    (∀ tx : CustomerTx,
        (finalize_transaction usd actual suggested market owner inter db).2 = .ok tx →
        tx.actual_ghs_paid ≤ tx.usd_received * tx.owner_rate_at_time) := by
  refine ⟨⟨?_, ?_⟩, ?_, ?_⟩
  · intro hres
    by_contra hno
    exact finalize_not_exceeds hno hres
  · intro hgt
    simp only [finalize_transaction, if_pos hgt]
  · intro hgt
    simp only [finalize_transaction, if_pos hgt]
  · intro tx htx
    rcases hd : deduct_from_inventory db.lots (usd * owner) with ⟨lots2, res⟩
    cases res with
    | error e2 =>
      simp only [finalize_transaction, hd] at htx
      split_ifs at htx
    | ok p =>
      rcases p with ⟨usage, cost⟩
      simp only [finalize_transaction, hd] at htx
      split_ifs at htx with h1 h2 h3
      simp at htx
      subst htx
      show actual ≤ usd * owner
      exact not_lt.mp h1

theorem finalize_exceeds_witness :
    (finalize_transaction 1 10 10 15 2 (3/2) ⟨[], [], [], []⟩).2
      = .error .exceedsOwnerShare :=
  ((finalize_exceeds_owner_share_iff 1 10 10 15 2 (3/2) ⟨[], [], [], []⟩).1).mpr
    (by norm_num)

/-- Claim C5 fails on the code: a rejected sale is not atomic.  At the
concrete input (one lot of 2000 GHS at unit cost 1, sale of 100 USD at owner
rate 12, payout 1000 GHS) the negative-profit rejection fires after
`deduct_from_inventory` has committed, so the lot is left at 800 GHS — a
state different from the one before the call. -/
theorem finalize_rejection_not_atomic :
    finalize_transaction 100 1000 1000 (31/2) 12 (23/2)
        ⟨[], [⟨1, 2000, 1⟩], [], []⟩
      = (⟨[], [⟨1, 800, 1⟩], [], []⟩, .error .negativeProfit) ∧
    (⟨[], [⟨1, 800, 1⟩], [], []⟩ : DB) ≠ ⟨[], [⟨1, 2000, 1⟩], [], []⟩ := by
  norm_num [finalize_transaction, deduct_from_inventory, runDeduct, totalRemaining]

/-- Claim C6: for every market rate `m > 0` the downward-correction branch in
`owner_rate`/`intermediary_rate` is unreachable, so both equal plain
floor-to-step: `owner_rate m = ⌊m*0.8/0.5⌋*0.5` and
`intermediary_rate m = ⌊m*0.75/0.5⌋*0.5`; in particular
`owner_rate 15.5 = 12` and `intermediary_rate 15.5 = 11.5`. -/
theorem rate_correction_branch_unreachable (m : ℚ) (_h : 0 < m) :
    owner_rate m = ⌊m * 0.8 / 0.5⌋ * 0.5 ∧
    intermediary_rate m = ⌊m * 0.75 / 0.5⌋ * 0.5 ∧
    owner_rate 15.5 = 12 ∧
    intermediary_rate 15.5 = 11.5 := by
  refine ⟨?_, ?_, ?_, ?_⟩
  · rw [owner_rate_eq_floor]; norm_num
  · rw [intermediary_rate_eq_floor]; norm_num
  · rw [owner_rate_eq_floor]; norm_num
  · rw [intermediary_rate_eq_floor]; norm_num

theorem rate_correction_witness :
    (0:ℚ) < 15.5 ∧ owner_rate 15.5 = ⌊(15.5:ℚ) * 0.8 / 0.5⌋ * 0.5 :=
  ⟨by norm_num, (rate_correction_branch_unreachable 15.5 (by norm_num)).1⟩

/-- Claim C7 fails on the code: `bulk_rate` performs no `InvalidAmount`
validation.  With `sourceAmount = -5` and `rateApplied = 2` it succeeds and
records a bulk transfer and a lot with negative quantity, and with
`rateApplied = 0` it dies on the division `1/rate` (modelled as
`divisionByZero`) instead of failing with a named `InvalidAmount` error. -/
theorem bulk_rate_skips_validation :
    bulk_rate (-5) 2 ⟨[], [], [], []⟩
      = (⟨[⟨1, -5, 2, -10⟩], [⟨1, -10, 1/2⟩], [], []⟩, .ok ⟨1, -5, 2, -10⟩) ∧
    bulk_rate 1 0 ⟨[], [], [], []⟩ = (⟨[], [], [], []⟩, .error .divisionByZero) := by
  norm_num [bulk_rate]

/-- Claim C8 fails on the code: `deduct_from_inventory` raises no
`InvalidAmount` error for `ghs_needed ≤ 0`; the loop breaks immediately and
the call returns success with an empty usage list and zero cost, leaving the
lots untouched (shown at the failing inputs -1 and 0). -/
theorem deduct_nonpositive_returns_silently :
    deduct_from_inventory [⟨1, 5, 1⟩] (-1) = ([⟨1, 5, 1⟩], .ok ([], 0)) ∧
    deduct_from_inventory [⟨1, 5, 1⟩] 0 = ([⟨1, 5, 1⟩], .ok ([], 0)) := by
  norm_num [deduct_from_inventory, runDeduct]

/-- Claim C9: nonnegativity of lot quantities is an invariant of deduction.
Whether `deduct_from_inventory` succeeds or fails, every lot in the returned
(committed) table still has `remaining_ghs ≥ 0`, because each per-lot take is
`min(avail, remaining)`. -/
theorem deduct_preserves_nonneg (lots : List Lot) (x : ℚ)
    (hn : ∀ l ∈ lots, 0 ≤ l.remaining_ghs) :
    ∀ l ∈ (deduct_from_inventory lots x).1, 0 ≤ l.remaining_ghs := by
  by_cases h : 0 < (runDeduct lots x).leftover
  · simp only [deduct_from_inventory, if_pos h]
    exact runDeduct_preserves_nonneg lots x hn
  · simp only [deduct_from_inventory, if_neg h]
    exact runDeduct_preserves_nonneg lots x hn

theorem deduct_preserves_nonneg_witness :
    0 ≤ (⟨1, 0, 1/10⟩ : Lot).remaining_ghs :=
  deduct_preserves_nonneg [⟨1, 10, 1/10⟩] 20 (by norm_num) ⟨1, 0, 1/10⟩
    (by norm_num [deduct_from_inventory, runDeduct])

/-- Claim C10: for every market rate `m ≥ 0`, the intermediary rate is at
most the owner rate, so for `usd ≥ 0` the suggested payout
`usd * intermediary_rate m` never exceeds the owner share
`usd * owner_rate m`, and finalizing with the suggested amount (and the same
rate snapshots, as `pay_usd` passes them) can never be rejected with
`exceedsOwnerShare`. -/
theorem intermediary_rate_below_owner (m usd : ℚ) (hm : 0 ≤ m) (husd : 0 ≤ usd) :
    intermediary_rate m ≤ owner_rate m ∧
    usd * intermediary_rate m ≤ usd * owner_rate m ∧
    ∀ db : DB,
      (finalize_transaction usd (usd * intermediary_rate m) (usd * intermediary_rate m)
          m (owner_rate m) (intermediary_rate m) db).2
        ≠ .error .exceedsOwnerShare := by
  have h1 := intermediary_rate_le_owner_rate hm
  exact ⟨h1, mul_le_mul_of_nonneg_left h1 husd,
    fun db => finalize_not_exceeds (not_lt.mpr (mul_le_mul_of_nonneg_left h1 husd))⟩

theorem intermediary_below_owner_witness :
    (finalize_transaction 100 (100 * intermediary_rate 15.5)
        (100 * intermediary_rate 15.5) 15.5 (owner_rate 15.5) (intermediary_rate 15.5)
        ⟨[], [], [], []⟩).2 ≠ .error .exceedsOwnerShare :=
  (intermediary_rate_below_owner 15.5 100 (by norm_num) (by norm_num)).2.2
    ⟨[], [], [], []⟩

end ExchangeBot
